import Mathlib

/-!
Shallow embedding of the skry_stream asynchronous stream-combinator
library (src/packages/skry-stream/src/skry_stream/stream.py) over finite
sources, together with proofs of the specification's claims.

A `Stream` over a finite source is modelled as the `List` of elements it
emits; each operator is translated into the corresponding list
transformer, mirroring the Python generator loop structure statement by
statement (mutable loop accumulators become extra recursion arguments).
-/

namespace SkryStream

/-! ## skip (stream.py lines 102-111)

`skip(count)` keeps a mutable counter `skipped` starting at 0; for every
upstream item, if `skipped < count` the item is dropped and the counter
is incremented, otherwise the item is forwarded. Counts are Python ints,
hence `Int` here. -/

def skipAux (count : Int) : Int → List α → List α
  | _, [] => []
  | skipped, x :: xs =>
    if skipped < count then skipAux count (skipped + 1) xs
    else x :: skipAux count skipped xs

def skip (count : Int) (xs : List α) : List α :=
  skipAux count 0 xs

/-! ## chunk (stream.py lines 260-272)

`chunk(size)` accumulates into a mutable list `chunk`; on each item, if
`len(chunk) < size` the item is appended, otherwise the current chunk is
emitted (a snapshot copy) and a fresh chunk `[item]` is started; after
exhaustion a non-empty residual chunk is emitted. There is no validation of
`size`. -/

def chunkAux (size : Int) : List α → List α → List (List α)
  | [], chunk =>
    match chunk with
    | [] => []
    | _ => [chunk]
  | x :: rest, chunk =>
    if (chunk.length : Int) < size then chunkAux size rest (chunk ++ [x])
    else chunk :: chunkAux size rest [x]

def chunk (size : Int) (xs : List α) : List (List α) :=
  chunkAux size xs []

/-! ## sink (stream.py lines 361-373)

`sink(f, parallel)` appends each pending invocation to a staging buffer;
when the buffer length equals `parallel` it gathers (awaits) the batch
and clears the buffer; after exhaustion it gathers any non-empty
remainder. We model the observable behaviour as the list of gathered
batches (each batch listing the elements whose invocations are awaited
together). -/

def sinkBatches (parallel : Int) : List α → List α → List (List α)
  | [], chunk =>
    match chunk with
    | [] => []
    | _ => [chunk]
  | x :: rest, chunk =>
    if ((chunk ++ [x]).length : Int) = parallel then
      (chunk ++ [x]) :: sinkBatches parallel rest []
    else sinkBatches parallel rest (chunk ++ [x])

def sink (parallel : Int) (xs : List α) : List (List α) :=
  sinkBatches parallel xs []

/-! ## zip (stream.py lines 147-161)

`zip(*others)` keeps the iterators `[self, *others]`; each round it
advances every iterator in input order, returning (terminating the
stream) as soon as one of them is exhausted, and otherwise emits the
tuple of pulled items. We model the receiver as the first list and the
extra sources as a list of lists; a round is `pullRound`, which pulls
from the sources in order and fails at the first exhausted one. -/

def pullRound : List (List α) → Option (List α × List (List α))
  | [] => some ([], [])
  | [] :: _ => none
  | (x :: xs) :: ls =>
    match pullRound ls with
    | none => none
    | some (items, rest) => some (x :: items, xs :: rest)

def zip (s : List α) (others : List (List α)) : List (List α) :=
  match s with
  | [] => []
  | x :: xs =>
    match pullRound others with
    | none => []
    | some (items, rest) => (x :: items) :: zip xs rest

/-- Minimum of the lengths of the receiver and all extra sources. -/
def minLen (s : List α) (others : List (List α)) : Nat :=
  others.foldr (fun l m => Nat.min l.length m) s.length

/-! ## merge with zero extra sources (stream.py lines 113-145)

`merge(*others)` starts one pumping task per source; each task enqueues
every item of its source into a shared FIFO queue followed by a
per-source completion marker, and the consumer dequeues until it has
seen as many completion markers as there are sources. With a single
source (zero extra sources) the queue is filled by one producer only,
so its contents are exactly that source's items in order followed by
one marker; the consumer loop is modelled over that queue trace. -/

inductive MergeEvent (α : Type u) where
  | item (a : α)
  | done

def mergeConsume : Nat → List (MergeEvent α) → List α
  | 0, _ => []
  | _ + 1, [] => []
  | n + 1, MergeEvent.done :: rest => mergeConsume n rest
  | n + 1, MergeEvent.item a :: rest => a :: mergeConsume (n + 1) rest

def mergePumpTrace (s : List α) : List (MergeEvent α) :=
  s.map MergeEvent.item ++ [MergeEvent.done]

def mergeNoExtra (s : List α) : List α :=
  mergeConsume 1 (mergePumpTrace s)

/-! ## window (tumbling, stream.py lines 274-300)

`window(interval)` keeps a mutable batch `chunk` and the current window
start `ts` (initially absent). For each item: the timestamp is
extracted; if `ts` is unset it becomes the item's timestamp; if
`ts + interval >= timestamp` the item is appended to the batch,
otherwise the non-empty batch is emitted, a fresh batch `[item]` is
started and `ts` becomes the item's timestamp. On exhaustion the
non-empty batch is emitted when `include_partial` is set. -/

/-- Emit the batch if non-empty (the `if chunk: yield chunk.copy()`
idiom). -/
def flushChunk (chunk : List α) : List (List α) :=
  match chunk with
  | [] => []
  | _ => [chunk]

def windowAux (getTs : α → Int) (interval : Int) (includePartial : Bool) :
    List α → List α → Option Int → List (List α)
  | [], chunk, _ =>
    if includePartial then flushChunk chunk else []
  | x :: rest, chunk, tsOpt =>
    let timestamp := getTs x
    let ts := match tsOpt with
      | none => timestamp
      | some t => t
    if timestamp ≤ ts + interval then
      windowAux getTs interval includePartial rest (chunk ++ [x]) (some ts)
    else
      flushChunk chunk ++
        windowAux getTs interval includePartial rest [x] (some timestamp)

def window (getTs : α → Int) (interval : Int) (includePartial : Bool)
    (xs : List α) : List (List α) :=
  windowAux getTs interval includePartial xs [] none

/-! ## sliding_window (stream.py lines 302-353)

`sliding_window(size, advance)` validates `size > 0` and `advance > 0`
up front (raising a `ValueError` otherwise, modelled as `Except.error`).
State: a list of open windows, each a start timestamp `ts` plus an
accumulating batch, and the start `last_start` of the most recently
created window (initially absent). Per non-null item with timestamp t:
if no window was ever opened one is opened at t; otherwise, while
`t - last_start >= advance`, a further window is created at
`last_start + advance`. Then every open window with `t - ts >= size` is
closed, its batch emitted if non-empty; every other open window has the
item appended. On exhaustion, if `include_partial`, the remaining
non-empty windows are emitted in age order. The `while` loop is given
the fuel `(t - last_start).toNat`, which the loop never exhausts: every
iteration requires `advance ≤ t - last_start` and decreases
`t - last_start` by `advance ≥ 1` (see `swCreate_post`). -/

structure SWindow (α : Type u) where
  ts : Int
  items : List α
  deriving DecidableEq

def swCreate (advance t : Int) : Nat → Int → List (SWindow α) × Int
  | 0, lastStart => ([], lastStart)
  | fuel + 1, lastStart =>
    if advance ≤ t - lastStart then
      let p := swCreate advance t fuel (lastStart + advance)
      (⟨lastStart + advance, []⟩ :: p.1, p.2)
    else ([], lastStart)

def swProcess (size t : Int) (item : α) :
    List (SWindow α) → List (List α) × List (SWindow α)
  | [] => ([], [])
  | w :: ws =>
    let p := swProcess size t item ws
    if size ≤ t - w.ts then
      ((match w.items with
        | [] => p.1
        | _ => w.items :: p.1),
       p.2)
    else (p.1, ⟨w.ts, w.items ++ [item]⟩ :: p.2)

def slidingWindowAux (size advance : Int) (getTs : α → Int) (includePartial : Bool) :
    List (Option α) → List (SWindow α) → Option Int → List (List α)
  | [], windows, _ =>
    if includePartial then
      (windows.filter (fun w => !w.items.isEmpty)).map SWindow.items
    else []
  | none :: rest, windows, lastStart =>
    slidingWindowAux size advance getTs includePartial rest windows lastStart
  | some item :: rest, windows, lastStart =>
    let t := getTs item
    let created : List (SWindow α) × Int :=
      match lastStart with
      | none => ([⟨t, []⟩], t)
      | some l => swCreate advance t (t - l).toNat l
    let p := swProcess size t item (windows ++ created.1)
    p.1 ++ slidingWindowAux size advance getTs includePartial rest p.2 (some created.2)

def slidingWindow (size advance : Int) (getTs : α → Int) (includePartial : Bool)
    (xs : List (Option α)) : Except String (List (List α)) :=
  if size ≤ 0 then Except.error "size must be > 0"
  else if advance ≤ 0 then Except.error "advance must be > 0"
  else Except.ok (slidingWindowAux size advance getTs includePartial xs [] none)

/-! ## split (stream.py lines 394-447)

`_SplitState` holds the shared upstream iterator, one FIFO buffer per
branch, and a terminated flag; `next_for(index)` pops the branch's own
buffer when non-empty, signals end-of-stream when the buffer is empty
and the state is terminated, and otherwise (under the shared lock)
advances the upstream once, appending the pulled element to every
branch buffer — after which the loop re-runs and pops the branch's own
buffer — or marks the state terminated on upstream exhaustion.

Under the library's single-threaded cooperative scheduler each
`next_for` call is observably atomic (the only suspension points are
the lock, which serializes whole calls, and the upstream pull, which
commutes with lock-free pops of other branches' non-empty buffers), so
an arbitrary interleaving of the branches' pulls is a schedule: a list
of branch indices, each performing one `next_for` step. The error field
is not modelled (sources here are pure lists and never fail). -/

structure SplitState (α : Type u) where
  remaining : List α
  buffers : List (List α)
  done : Bool

def nextFor (st : SplitState α) (i : Nat) : Option α × SplitState α :=
  match st.buffers.getD i [] with
  | x :: xs => (some x, { st with buffers := st.buffers.set i xs })
  | [] =>
    if st.done then (none, st)
    else
      match st.remaining with
      | [] => (none, { st with done := true })
      | y :: ys =>
        (some y,
         { remaining := ys,
           buffers := (st.buffers.map (fun b => b ++ [y])).set i [],
           done := false })

def splitInit (branches : Nat) (source : List α) : SplitState α :=
  { remaining := source, buffers := List.replicate branches [], done := false }

/-- Run a schedule of branch pulls, collecting each branch's emitted
elements in `outs`. -/
def runSplit : List Nat → SplitState α → List (List α) → SplitState α × List (List α)
  | [], st, outs => (st, outs)
  | i :: sched, st, outs =>
    let p := nextFor st i
    runSplit sched p.2
      (match p.1 with
        | some x => outs.set i (outs.getD i [] ++ [x])
        | none => outs)

/-- Invariant of the split state: per branch, what was emitted, what is
buffered and what is still upstream concatenate to the full source. -/
def SplitInv (n : Nat) (source : List α) (st : SplitState α)
    (outs : List (List α)) : Prop :=
  st.buffers.length = n ∧ outs.length = n ∧
  (st.done = true → st.remaining = []) ∧
  ∀ j < n, outs.getD j [] ++ st.buffers.getD j [] ++ st.remaining = source

/-! ## merge_ordered (stream.py lines 198-250)

A k-way ordered merge over a min-heap. Each heap entry is the Python
tuple `(key_fn(item), source_index, next(order_counter), item)`; the
receiver stream is source index 0, the extra sources follow in argument
order, and the counter is incremented on every push. Initialization
pulls one element from every source (immediately-empty sources are
skipped); the loop pops the heap minimum, emits its item, pulls the
next element from the popped entry's source and pushes it if present.

Python's `heapq` orders tuples lexicographically; the counter component
is unique across entries, so the heap minimum is the unique
lexicographic minimum of `(key, source index, counter)` — `popMin`
computes exactly that minimum (keys are drawn from any linear order).
The loop is driven by the fuel `heap length + total remaining length`,
which is exact: every iteration pops one entry and pushes at most one,
pulled from the remaining elements, so the measure drops by exactly one
per emission. -/

structure MOEntry (κ : Type u) (α : Type v) where
  key : κ
  src : Nat
  seq : Nat
  item : α

/-- Strict lexicographic order on the Python heap tuples
`(key, source index, insertion sequence)`. -/
def entryLt [LinearOrder κ] (a b : MOEntry κ α) : Prop :=
  a.key < b.key ∨ (a.key = b.key ∧ (a.src < b.src ∨ (a.src = b.src ∧ a.seq < b.seq)))

/-- Weak lexicographic order on the heap tuples: smaller key first,
then smaller source index, then earlier insertion sequence. -/
def entryLe [LinearOrder κ] (a b : MOEntry κ α) : Prop :=
  a.key < b.key ∨ (a.key = b.key ∧ (a.src < b.src ∨ (a.src = b.src ∧ a.seq ≤ b.seq)))

instance [LinearOrder κ] (a b : MOEntry κ α) : Decidable (entryLt a b) := by
  unfold entryLt
  infer_instance

/-- Pop the heap minimum (what `heapq.heappop` returns), with the rest
of the heap. -/
def popMin [LinearOrder κ] :
    List (MOEntry κ α) → Option (MOEntry κ α × List (MOEntry κ α))
  | [] => none
  | e :: es =>
    match popMin es with
    | none => some (e, [])
    | some (m, rest) =>
      if entryLt m e then some (m, e :: rest) else some (e, es)

/-- Initialization: pull the head of every source, pairing it with its
source index and the next counter value; the tails become the per-source
remainders (an empty source keeps an empty remainder and pushes
nothing, consuming no counter value). -/
def moInitAux (key : α → κ) : List (List α) → Nat → Nat →
    List (MOEntry κ α) × List (List α) × Nat
  | [], _, c => ([], [], c)
  | [] :: ss, i, c =>
    let p := moInitAux key ss (i + 1) c
    (p.1, [] :: p.2.1, p.2.2)
  | (x :: xs) :: ss, i, c =>
    let p := moInitAux key ss (i + 1) (c + 1)
    (⟨key x, i, c, x⟩ :: p.1, xs :: p.2.1, p.2.2)

/-- Main loop: pop the minimum, emit it, pull the next element from the
popped entry's source and push it with the next counter value. -/
def moLoop [LinearOrder κ] (key : α → κ) :
    Nat → List (MOEntry κ α) → List (List α) → Nat → List (MOEntry κ α)
  | 0, _, _, _ => []
  | fuel + 1, heap, rests, ctr =>
    match popMin heap with
    | none => []
    | some (m, rest) =>
      match rests.getD m.src [] with
      | [] => m :: moLoop key fuel rest rests ctr
      | x :: xs =>
        m :: moLoop key fuel (⟨key x, m.src, ctr, x⟩ :: rest)
          (rests.set m.src xs) (ctr + 1)

/-- The emitted entries of `merge_ordered` (keeping key, source index
and insertion sequence alongside each item). -/
def mergeOrderedAux [LinearOrder κ] (key : α → κ) (sources : List (List α)) :
    List (MOEntry κ α) :=
  let p := moInitAux key sources 0 0
  moLoop key (p.1.length + (p.2.1.map List.length).sum) p.1 p.2.1 p.2.2

/-- The emitted items of `merge_ordered` over the given sources (the
receiver stream is source 0). -/
def mergeOrdered [LinearOrder κ] (key : α → κ) (sources : List (List α)) : List α :=
  (mergeOrderedAux key sources).map MOEntry.item

end SkryStream

namespace SkryStream

/-! ### Proofs about skip -/

theorem skipAux_nonpos (count : Int) (h : count ≤ 0) :
    ∀ (skipped : Int) (xs : List α), 0 ≤ skipped → skipAux count skipped xs = xs := by
  intro skipped xs
  induction xs generalizing skipped with
  | nil => intro _; rfl
  | cons x xs ih =>
    intro hs
    have : ¬ skipped < count := by omega
    simp [skipAux, this, ih skipped hs]

/-- Claim C10: for every count `n ≤ 0`, `skip n` emits every element of
the stream unchanged and in order (nothing is discarded). -/
theorem skip_nonpos_eq_id (count : Int) (h : count ≤ 0) (xs : List α) :
    skip count xs = xs :=
  skipAux_nonpos count h 0 xs le_rfl

/-- Witness for C10 at a concrete input: `skip (-1)` on `[1, 2, 3]`. -/
theorem skip_nonpos_eq_id_witness :
    (-1 : Int) ≤ 0 ∧ skip (-1) [1, 2, 3] = [1, 2, 3] :=
  ⟨by decide, skip_nonpos_eq_id (-1) (by decide) [1, 2, 3]⟩

/-! ### Proofs about chunk -/

theorem chunkAux_flatten (size : Int) (xs chunk : List α) :
    (chunkAux size xs chunk).flatten = chunk ++ xs := by
  induction xs generalizing chunk with
  | nil => cases chunk <;> simp [chunkAux]
  | cons x rest ih =>
    by_cases h : (chunk.length : Int) < size
    · simp [chunkAux, h, ih]
    · simp [chunkAux, h, ih]

theorem chunkAux_shape (k : Nat) (xs : List α) :
    ∀ chunk : List α, chunk ≠ [] → chunk.length ≤ k →
    ∃ (L : List (List α)) (lst : List α),
      chunkAux (k : Int) xs chunk = L ++ [lst] ∧
      (∀ b ∈ L, b.length = k) ∧ lst ≠ [] ∧ lst.length ≤ k := by
  induction xs with
  | nil =>
    intro chunk hne hle
    refine ⟨[], chunk, ?_, by simp, hne, hle⟩
    cases chunk with
    | nil => exact absurd rfl hne
    | cons a l => simp [chunkAux]
  | cons x rest ih =>
    intro chunk hne hle
    by_cases h : (chunk.length : Int) < (k : Int)
    · have hlt : chunk.length < k := by exact_mod_cast h
      obtain ⟨L, lst, heq, hall, hlne, hlle⟩ :=
        ih (chunk ++ [x]) (by simp) (by simp; omega)
      exact ⟨L, lst, by simp [chunkAux, h, heq], hall, hlne, hlle⟩
    · have hk : chunk.length = k := by
        have : ¬ chunk.length < k := fun hc => h (by exact_mod_cast hc)
        omega
      have hk1 : 1 ≤ k := by
        cases chunk with
        | nil => exact absurd rfl hne
        | cons a l => simp at hk; omega
      obtain ⟨L, lst, heq, hall, hlne, hlle⟩ := ih [x] (by simp) (by simpa)
      refine ⟨chunk :: L, lst, ?_, ?_, hlne, hlle⟩
      · simp [chunkAux, h, heq]
      · intro b hb
        rcases List.mem_cons.mp hb with hb | hb
        · simpa [hb]
        · exact hall b hb

theorem sum_map_length_replicate (n k : Nat) :
    ((List.replicate n k).sum : Nat) = n * k := by
  induction n with
  | zero => simp
  | succ m ih => simp [List.replicate_succ, ih, Nat.succ_mul]; omega

/-- Claim C4: for every finite stream `s` and chunk size `k ≥ 1`,
`chunk k s` emits batches of sizes `k, …, k, r` with `r = |s| mod k`
(the final batch omitted when `r = 0`), and the concatenation of the
batches equals `s`. -/
theorem chunk_sizes_and_join (k : Nat) (hk : 1 ≤ k) (s : List α) :
    (chunk (k : Int) s).map List.length =
      List.replicate (s.length / k) k ++
        (if s.length % k = 0 then [] else [s.length % k]) ∧
    (chunk (k : Int) s).flatten = s := by
  constructor
  · cases s with
    | nil => simp [chunk, chunkAux]
    | cons x rest =>
      have h0 : ((([] : List α).length : Int) < (k : Int)) := by simp; omega
      have hstep : chunk (k : Int) (x :: rest) = chunkAux (k : Int) rest [x] := by
        simp only [chunk, chunkAux, if_pos h0, List.nil_append]
      obtain ⟨L, lst, heq, hall, hlne, hlle⟩ := chunkAux_shape k rest [x] (by simp) (by simpa)
      have hmapL : L.map List.length = List.replicate L.length k := by
        rw [List.eq_replicate_iff]
        exact ⟨by simp, by intro b hb; obtain ⟨c, hc, rfl⟩ := List.mem_map.mp hb; exact hall c hc⟩
      have hjoin : (chunk (k : Int) (x :: rest)).flatten = x :: rest := by
        rw [hstep, chunkAux_flatten]; simp
      have hlensum : (x :: rest).length = L.length * k + lst.length := by
        have := congrArg List.length hjoin
        rw [List.length_flatten] at this
        rw [← this, hstep, heq]
        simp [hmapL, sum_map_length_replicate]
      have hm1 : 1 ≤ lst.length := by
        cases lst with
        | nil => exact absurd rfl hlne
        | cons a l => simp
      rw [hstep, heq, List.map_append, hmapL]
      by_cases hmk : lst.length = k
      · have hN : (x :: rest).length = (L.length + 1) * k := by
          rw [hlensum, hmk]; ring
        have hdiv : (x :: rest).length / k = L.length + 1 := by
          rw [hN, Nat.mul_div_cancel _ (by omega)]
        have hmod : (x :: rest).length % k = 0 := by
          rw [hN]; exact Nat.mul_mod_left _ _
        rw [hdiv, hmod]
        simp [List.replicate_succ' (L.length) k, hmk]
      · have hmlt : lst.length < k := by omega
        have hdiv : (x :: rest).length / k = L.length := by
          rw [hlensum, Nat.mul_comm, Nat.mul_add_div (by omega)]
          simp [Nat.div_eq_of_lt hmlt]
        have hmod : (x :: rest).length % k = lst.length := by
          rw [hlensum, Nat.mul_comm, Nat.mul_add_mod]
          exact Nat.mod_eq_of_lt hmlt
        rw [hdiv, hmod]
        have hne0 : lst.length ≠ 0 := by omega
        simp [hne0]
  · simpa using chunkAux_flatten (k : Int) s []

/-- Witness for C4 at `k = 2`, `s = [1, 2, 3, 4, 5]`. -/
theorem chunk_sizes_and_join_witness :
    1 ≤ 2 ∧
    ((chunk (2 : Int) [1, 2, 3, 4, 5]).map List.length =
        List.replicate ([1, 2, 3, 4, 5].length / 2) 2 ++
          (if [1, 2, 3, 4, 5].length % 2 = 0 then [] else [[1, 2, 3, 4, 5].length % 2]) ∧
      (chunk (2 : Int) [1, 2, 3, 4, 5]).flatten = [1, 2, 3, 4, 5]) :=
  ⟨by decide, chunk_sizes_and_join 2 (by decide) [1, 2, 3, 4, 5]⟩

/-- Claim C5 concerns `chunk` with `size ≤ 0`. The code performs no
validation at construction or first pull: evaluating the embedded
operator at the failing input `size = 0`, source `[1, 2]` shows it
silently emits an empty batch followed by singletons instead of raising
a validation failure. -/
theorem chunk_nonpositive_size_eval :
    chunk (0 : Int) [1, 2] = [[], [1], [2]] := by
  decide

/-! ### Proofs about sink -/

theorem sinkBatches_nonpos (parallel : Int) (h : parallel ≤ 0) :
    ∀ (xs chunk : List α), sinkBatches parallel xs chunk =
      match chunk ++ xs with
      | [] => []
      | _ => [chunk ++ xs] := by
  intro xs
  induction xs with
  | nil => intro chunk; cases chunk <;> simp [sinkBatches]
  | cons x rest ih =>
    intro chunk
    have hne : ((chunk ++ [x]).length : Int) ≠ parallel := by
      have : 1 ≤ (chunk ++ [x]).length := by simp
      have : (1 : Int) ≤ ((chunk ++ [x]).length : Int) := by exact_mod_cast this
      omega
    rw [sinkBatches, if_neg hne, ih (chunk ++ [x])]
    have hcons : chunk ++ x :: rest = (chunk ++ [x]) ++ rest := by simp
    rw [hcons]

/-- Claim C9: `sink(f, parallel)` with `parallel ≤ 0` raises no
validation error; no intermediate gather ever fires (the staging buffer
length, always ≥ 1 after an append, never equals `parallel`), and all
buffered invocations are awaited together in a single gather after
upstream exhaustion (no gather at all for an empty stream). -/
theorem sink_nonpos_single_gather (parallel : Int) (h : parallel ≤ 0) (xs : List α) :
    sink parallel xs = match xs with
      | [] => []
      | _ => [xs] := by
  have := sinkBatches_nonpos parallel h xs []
  simpa [sink] using this

/-- Witness for C9 at `parallel = 0`, source `[1, 2, 3]`: a single
terminal gather containing all three invocations. -/
theorem sink_nonpos_single_gather_witness :
    (0 : Int) ≤ 0 ∧ sink (0 : Int) [1, 2, 3] = [[1, 2, 3]] :=
  ⟨by decide, sink_nonpos_single_gather 0 (by decide) [1, 2, 3]⟩

/-! ### Proofs about zip -/

theorem pullRound_none_iff (ls : List (List α)) :
    pullRound ls = none ↔ ∃ l ∈ ls, l = [] := by
  induction ls with
  | nil => simp [pullRound]
  | cons l ls ih =>
    cases l with
    | nil => simp [pullRound]
    | cons x xs =>
      rw [pullRound]
      cases h : pullRound ls with
      | none => simpa [h] using ih.mp h
      | some p =>
        simp only [h]
        constructor
        · intro hc; exact absurd hc (by simp)
        · rintro ⟨l, hl, rfl⟩
          rcases List.mem_cons.mp hl with hl | hl
          · exact absurd hl.symm (by simp)
          · exact absurd (ih.mpr ⟨[], hl, rfl⟩) (by simp [h])

theorem pullRound_eq_of_nonempty [Inhabited α] (ls : List (List α))
    (h : ∀ l ∈ ls, l ≠ []) :
    pullRound ls = some (ls.map (fun l => l.headD default), ls.map List.tail) := by
  induction ls with
  | nil => rfl
  | cons l ls ih =>
    cases l with
    | nil => exact absurd rfl (h [] (by simp))
    | cons x xs =>
      rw [pullRound, ih (fun l hl => h l (by simp [hl]))]
      simp

theorem minLen_le_length (s : List α) (others : List (List α)) :
    minLen s others ≤ s.length := by
  induction others with
  | nil => exact le_rfl
  | cons l ls ih => exact le_trans (Nat.min_le_right _ _) ih

theorem minLen_le_of_mem (s : List α) {others : List (List α)} {l : List α}
    (hl : l ∈ others) : minLen s others ≤ l.length := by
  induction others with
  | nil => cases hl
  | cons a ls ih =>
    rcases List.mem_cons.mp hl with rfl | hl
    · exact Nat.min_le_left _ _
    · exact le_trans (Nat.min_le_right _ _) (ih hl)

theorem minLen_cons_of_nonempty (x : α) (xs : List α) (others : List (List α))
    (h : ∀ l ∈ others, l ≠ []) :
    minLen (x :: xs) others = minLen xs (others.map List.tail) + 1 := by
  induction others with
  | nil => simp [minLen]
  | cons l ls ih =>
    have hlen : l.length = l.tail.length + 1 := by
      cases l with
      | nil => exact absurd rfl (h [] (by simp))
      | cons a t => simp
    have := ih (fun l hl => h l (by simp [hl]))
    simp only [minLen, List.foldr_cons, List.map_cons] at this ⊢
    rw [this, hlen]
    exact Nat.add_min_add_right _ _ 1

theorem headD_eq_getD (l : List α) (d : α) : l.headD d = l.getD 0 d := by
  cases l <;> rfl

/-- Claim C7: `zip` on a family of finite inputs emits exactly
`min(length(inputs))` tuples, the `i`-th tuple holding the `i`-th
element of each input in input order; on the shortest source's
exhaustion the stream terminates, so no element at a position at or
beyond the minimum length is ever emitted (elements pulled during the
aborted final round are discarded). -/
theorem zip_length_and_positions [Inhabited α] (s : List α) (others : List (List α)) :
    (zip s others).length = minLen s others ∧
    ∀ i < minLen s others,
      (zip s others).getD i [] = (s :: others).map (fun l => l.getD i default) := by
  induction s generalizing others with
  | nil =>
    have h0 : minLen ([] : List α) others = 0 :=
      Nat.le_zero.mp (minLen_le_length [] others)
    exact ⟨by simp [zip, h0], by intro i hi; rw [h0] at hi; cases Nat.not_lt_zero i hi⟩
  | cons x xs ih =>
    cases h : pullRound others with
    | none =>
      obtain ⟨l, hl, rfl⟩ := (pullRound_none_iff others).mp h
      have h0 : minLen (x :: xs) others = 0 :=
        Nat.le_zero.mp (minLen_le_of_mem _ hl)
      exact ⟨by simp [zip, h, h0], by intro i hi; rw [h0] at hi; cases Nat.not_lt_zero i hi⟩
    | some p =>
      have hne : ∀ l ∈ others, l ≠ [] := by
        intro l hl hnil
        subst hnil
        exact absurd h (by simp [(pullRound_none_iff others).mpr ⟨[], hl, rfl⟩])
      have hp := pullRound_eq_of_nonempty others hne
      rw [h] at hp
      obtain rfl : p = (others.map (fun l => l.headD default), others.map List.tail) :=
        Option.some.inj hp
      have hmin := minLen_cons_of_nonempty x xs others hne
      have hzip : zip (x :: xs) others =
          (x :: others.map (fun l => l.headD default)) :: zip xs (others.map List.tail) := by
        rw [zip, h]
      obtain ⟨ihlen, ihpos⟩ := ih (others.map List.tail)
      constructor
      · rw [hzip, hmin]; simp [ihlen]
      · intro i hi
        cases i with
        | zero =>
          rw [hzip]
          simp only [List.getD_cons_zero, List.map_cons]
          congr 1
          exact List.map_congr_left (fun l _ => headD_eq_getD l default)
        | succ i =>
          rw [hmin] at hi
          have hi' : i < minLen xs (others.map List.tail) := by omega
          rw [hzip]
          have := ihpos i hi'
          simp only [List.getD_cons_succ, this, List.map_cons, List.map_map]
          congr 1
          apply List.map_congr_left
          intro l hl
          cases l with
          | nil => exact absurd rfl (hne [] hl)
          | cons a t => simp

/-- Witness for C7 at `s = [1, 2, 3]`, `others = [[4, 5]]`: two tuples,
with positional identity at indices 0 and 1. -/
theorem zip_length_and_positions_witness :
    (zip [1, 2, 3] [[4, 5]]).length = minLen [1, 2, 3] [[4, 5]] ∧
    (0 < minLen [1, 2, 3] [[4, 5]] ∧
      (zip [1, 2, 3] [[4, 5]]).getD 0 [] =
        ([1, 2, 3] :: [[4, 5]]).map (fun l => l.getD 0 (default : Nat))) ∧
    (1 < minLen [1, 2, 3] [[4, 5]] ∧
      (zip [1, 2, 3] [[4, 5]]).getD 1 [] =
        ([1, 2, 3] :: [[4, 5]]).map (fun l => l.getD 1 (default : Nat))) := by
  obtain ⟨hlen, hpos⟩ := zip_length_and_positions [1, 2, 3] [[4, 5]]
  exact ⟨hlen, ⟨by decide, hpos 0 (by decide)⟩, ⟨by decide, hpos 1 (by decide)⟩⟩

/-! ### Proofs about merge with zero extra sources -/

theorem mergeConsume_one_trace (l : List α) :
    mergeConsume 1 (l.map MergeEvent.item ++ [MergeEvent.done]) = l := by
  induction l with
  | nil => rfl
  | cons x xs ih => simpa [mergeConsume] using ih

/-- Claim C8: `merge` invoked with zero extra sources emits exactly the
same sequence of elements as the receiver stream itself — with a single
pumping task the shared queue receives that source's items in order
followed by one completion marker, and the consumer forwards them all. -/
theorem merge_no_extra_identity (s : List α) : mergeNoExtra s = s :=
  mergeConsume_one_trace s

/-! ### Proofs about window (tumbling) -/

theorem windowAux_first_opens (getTs : α → Int) (interval : Int) (ip : Bool)
    (x : α) (xs : List α) :
    window getTs interval ip (x :: xs) =
      windowAux getTs interval ip xs [x] (some (getTs x)) := by
  rw [window, windowAux]
  by_cases h : getTs x ≤ getTs x + interval
  · simp [h]
  · simp [h, flushChunk]

/-- Claim C6: for `window(interval)`, the first element's timestamp `t₀`
opens a window; a subsequent element with timestamp `≤ t₀ + interval` is
appended to the current batch; an element whose timestamp exceeds
`t₀ + interval` emits the current batch (when non-empty) and restarts at
its own timestamp; on exhaustion the open non-empty batch is emitted iff
`include_partial`; and `window(interval=2)` on timestamps `[0, 1, 4, 5]`
emits `[[0, 1], [4, 5]]`. -/
theorem window_tumbling_spec (getTs : α → Int) (interval : Int) (ip : Bool) :
    (∀ (x : α) (xs : List α),
      window getTs interval ip (x :: xs) =
        windowAux getTs interval ip xs [x] (some (getTs x))) ∧
    (∀ (x : α) (rest chunk : List α) (t0 : Int), getTs x ≤ t0 + interval →
      windowAux getTs interval ip (x :: rest) chunk (some t0) =
        windowAux getTs interval ip rest (chunk ++ [x]) (some t0)) ∧
    (∀ (x : α) (rest chunk : List α) (t0 : Int), t0 + interval < getTs x →
      windowAux getTs interval ip (x :: rest) chunk (some t0) =
        flushChunk chunk ++ windowAux getTs interval ip rest [x] (some (getTs x))) ∧
    (∀ (chunk : List α) (tsOpt : Option Int), chunk ≠ [] →
      windowAux getTs interval ip [] chunk tsOpt = if ip then [chunk] else []) ∧
    window (fun t : Int => t) 2 true [0, 1, 4, 5] = [[0, 1], [4, 5]] := by
  refine ⟨windowAux_first_opens getTs interval ip, ?_, ?_, ?_, by decide⟩
  · intro x rest chunk t0 h
    rw [windowAux]
    simp [h]
  · intro x rest chunk t0 h
    rw [windowAux]
    simp [not_le.mpr h]
  · intro chunk tsOpt h
    rw [windowAux]
    cases chunk with
    | nil => exact absurd rfl h
    | cons a l => cases ip <;> simp [flushChunk]

/-- Witness for C6: concrete instances of each conjunct at `getTs = id`,
`interval = 2`, `include_partial = true`. -/
theorem window_tumbling_spec_witness :
    window (fun t : Int => t) 2 true [0, 1, 4, 5] = [[0, 1], [4, 5]] ∧
    ((1 : Int) ≤ 0 + 2 ∧
      windowAux (fun t : Int => t) 2 true [1] [0] (some 0) =
        windowAux (fun t : Int => t) 2 true [] [0, 1] (some 0)) ∧
    ((0 : Int) + 2 < 4 ∧
      windowAux (fun t : Int => t) 2 true [4] [0, 1] (some 0) =
        [[0, 1]] ++ windowAux (fun t : Int => t) 2 true [] [4] (some 4)) ∧
    (([4, 5] : List Int) ≠ [] ∧
      windowAux (fun t : Int => t) 2 true [] [4, 5] (some 4) =
        if true then [[4, 5]] else []) := by
  obtain ⟨hopen, happend, hflush, hexh, hex⟩ :=
    window_tumbling_spec (fun t : Int => t) 2 true
  refine ⟨hex, ⟨by decide, ?_⟩, ⟨by decide, ?_⟩, ⟨by decide, ?_⟩⟩
  · exact happend 1 [] [0] 0 (by decide)
  · exact hflush 4 [] [0, 1] 0 (by decide)
  · exact hexh [4, 5] (some 4) (by decide)

/-! ### Proofs about sliding_window -/

theorem swCreate_post (advance t : Int) (hadv : 0 < advance) :
    ∀ (fuel : Nat) (l : Int), t - l ≤ (fuel : Int) →
      t - (@swCreate α advance t fuel l).2 < advance := by
  intro fuel
  induction fuel with
  | zero => intro l h; simpa [swCreate] using lt_of_le_of_lt h (by exact_mod_cast hadv)
  | succ n ih =>
    intro l h
    rw [swCreate]
    by_cases hc : advance ≤ t - l
    · simpa [hc] using ih (l + advance) (by omega)
    · simpa [hc] using not_le.mp hc

/-- Claim C3: in `sliding_window(size, advance)`, processing an element
with timestamp `t` over the list of open windows emits exactly the
batches of the windows whose start satisfies `t - ts ≥ size` and whose
batch is non-empty (closing them, in age order), and keeps exactly the
windows whose start satisfies `t - ts < size`, appending the element to
each of them; concretely, `sliding_window(size=3, advance=2)` on
timestamps `0, 1, 2, 3` emits `[[t0, t1, t2], [t2, t3]]`. -/
theorem sliding_window_spec :
    (∀ (size t : Int) (item : Int) (ws : List (SWindow Int)),
      (swProcess size t item ws).1 =
        (ws.filter (fun w => decide (size ≤ t - w.ts) && !w.items.isEmpty)).map
          SWindow.items ∧
      (swProcess size t item ws).2 =
        (ws.filter (fun w => decide (t - w.ts < size))).map
          (fun w => ⟨w.ts, w.items ++ [item]⟩)) ∧
    slidingWindow 3 2 (fun t : Int => t) true [some 0, some 1, some 2, some 3] =
      Except.ok [[0, 1, 2], [2, 3]] := by
  constructor
  · intro size t item ws
    induction ws with
    | nil => exact ⟨rfl, rfl⟩
    | cons w ws ih =>
      obtain ⟨ih1, ih2⟩ := ih
      by_cases hc : size ≤ t - w.ts
      · have hc2 : ¬ t - w.ts < size := not_lt.mpr hc
        cases hw : w.items with
        | nil =>
          constructor
          · simp [swProcess, hc, hw, List.filter_cons, hc2, ih1]
          · simp [swProcess, hc, List.filter_cons, hc2, ih2]
        | cons a l =>
          constructor
          · simp [swProcess, hc, hw, List.filter_cons, hc2, ih1]
          · simp [swProcess, hc, List.filter_cons, hc2, ih2]
      · have hc2 : t - w.ts < size := not_le.mp hc
        constructor
        · simp [swProcess, hc, List.filter_cons, hc2, ih1]
        · simp [swProcess, hc, List.filter_cons, hc2, ih2]
  · rfl

/-! ### Proofs about split -/

theorem getD_of_le (l : List β) (d : β) : ∀ i, l.length ≤ i → l.getD i d = d := by
  induction l with
  | nil => intro i _; cases i <;> rfl
  | cons a t ih =>
    intro i h
    cases i with
    | zero => simp at h
    | succ j => simpa using ih j (by simpa using h)

theorem getD_set_eq (l : List β) (a d : β) :
    ∀ i, i < l.length → (l.set i a).getD i d = a := by
  induction l with
  | nil => intro i h; simp at h
  | cons b t ih =>
    intro i h
    cases i with
    | zero => rfl
    | succ j => simpa using ih j (by simpa using h)

theorem getD_set_ne (l : List β) (a d : β) :
    ∀ i j, i ≠ j → (l.set i a).getD j d = l.getD j d := by
  induction l with
  | nil => intro i j _; simp
  | cons b t ih =>
    intro i j hne
    cases i with
    | zero =>
      cases j with
      | zero => exact absurd rfl hne
      | succ j2 => simp
    | succ i2 =>
      cases j with
      | zero => simp
      | succ j2 => simpa using ih i2 j2 (fun hc => hne (by rw [hc]))

theorem getD_map (f : β → γ) (l : List β) (d : β) (e : γ) :
    ∀ i, i < l.length → (l.map f).getD i e = f (l.getD i d) := by
  induction l with
  | nil => intro i h; simp at h
  | cons b t ih =>
    intro i h
    cases i with
    | zero => rfl
    | succ j => simpa using ih j (by simpa using h)

theorem getD_replicate_self (b : β) : ∀ (n i : Nat), (List.replicate n b).getD i b = b := by
  intro n
  induction n with
  | zero => intro i; cases i <;> rfl
  | succ m ih =>
    intro i
    cases i with
    | zero => rfl
    | succ j => simpa [List.replicate_succ] using ih j

theorem lt_length_of_getD_cons {l : List (List β)} {i : Nat} {x : β} {xs : List β}
    (h : l.getD i [] = x :: xs) : i < l.length := by
  by_contra hc
  rw [getD_of_le l [] i (le_of_not_lt hc)] at h
  exact absurd h (by simp)

theorem nextFor_inv (n : Nat) (source : List α) (st : SplitState α)
    (outs : List (List α)) (i : Nat) (hinv : SplitInv n source st outs) :
    SplitInv n source (nextFor st i).2
      (match (nextFor st i).1 with
        | some x => outs.set i (outs.getD i [] ++ [x])
        | none => outs) := by
  obtain ⟨hblen, holen, hdone, hj⟩ := hinv
  rcases hb : st.buffers.getD i [] with _ | ⟨x, xs⟩
  · by_cases hd : st.done = true
    · simp only [nextFor, hb, if_pos hd]
      exact ⟨hblen, holen, hdone, hj⟩
    · rcases hr : st.remaining with _ | ⟨y, ys⟩
      · simp only [nextFor, hb, if_neg hd, hr]
        refine ⟨hblen, holen, fun _ => rfl, ?_⟩
        intro j hjn
        simpa [hr] using hj j hjn
      · simp only [nextFor, hb, if_neg hd, hr]
        constructor
        · simpa using hblen
        · constructor
          · simpa using holen
          · refine ⟨by simp, ?_⟩
            intro j hjn
            by_cases hij : i = j
            · subst hij
              have hilt : i < st.buffers.length := by omega
              have hiolt : i < outs.length := by omega
              rw [getD_set_eq outs _ [] i hiolt,
                getD_set_eq _ _ [] i (by simpa using hilt)]
              have := hj i hjn
              rw [hb, hr] at this
              simpa using this
            · rw [getD_set_ne outs _ [] i j hij, getD_set_ne _ _ [] i j hij,
                getD_map (fun b => b ++ [y]) st.buffers [] _ j (by omega)]
              have := hj j hjn
              rw [hr] at this
              simpa using this
  · have hilt : i < st.buffers.length := lt_length_of_getD_cons hb
    have hiolt : i < outs.length := by omega
    simp only [nextFor, hb]
    refine ⟨by simpa using hblen, by simpa using holen, hdone, ?_⟩
    intro j hjn
    by_cases hij : i = j
    · subst hij
      rw [getD_set_eq outs _ [] i hiolt, getD_set_eq st.buffers _ [] i hilt]
      have := hj i hjn
      rw [hb] at this
      simpa using this
    · rw [getD_set_ne outs _ [] i j hij, getD_set_ne st.buffers _ [] i j hij]
      exact hj j hjn

theorem runSplit_inv (n : Nat) (source : List α) :
    ∀ (sched : List Nat) (st : SplitState α) (outs : List (List α)),
      SplitInv n source st outs →
      SplitInv n source (runSplit sched st outs).1 (runSplit sched st outs).2 := by
  intro sched
  induction sched with
  | nil => intro st outs hinv; exact hinv
  | cons i sched ih =>
    intro st outs hinv
    exact ih _ _ (nextFor_inv n source st outs i hinv)

theorem splitInit_inv (n : Nat) (source : List α) :
    SplitInv n source (splitInit n source) (List.replicate n []) := by
  refine ⟨by simp [splitInit], by simp, by simp [splitInit], ?_⟩
  intro j hj
  simp [splitInit, getD_replicate_self]

/-- Claim C2: for any branch count `n ≥ 2` and any interleaving of the
branches' pulls (a schedule of `next_for` calls), a branch that has
been fully collected — its buffer is empty and the upstream is
exhausted, which is exactly the state in which its next pull signals
end-of-stream — has emitted the full source sequence, in order. -/
theorem split_branches_full_sequence (source : List α) (n : Nat) (hn : 2 ≤ n)
    (sched : List Nat) (i : Nat) (hi : i < n)
    (hbuf : (runSplit sched (splitInit n source) (List.replicate n [])).1.buffers.getD i [] = [])
    (hrem : (runSplit sched (splitInit n source) (List.replicate n [])).1.remaining = []) :
    (runSplit sched (splitInit n source) (List.replicate n [])).2.getD i [] = source ∧
    (nextFor (runSplit sched (splitInit n source) (List.replicate n [])).1 i).1 = none := by
  obtain ⟨hblen, holen, hdone, hj⟩ :=
    runSplit_inv n source sched (splitInit n source) (List.replicate n [])
      (splitInit_inv n source)
  constructor
  · have := hj i hi
    rw [hbuf, hrem] at this
    simpa using this
  · rw [nextFor, hbuf]
    by_cases hd : (runSplit sched (splitInit n source) (List.replicate n [])).1.done = true
    · simp [hd]
    · simp [hd, hrem]

/-! ### Lexicographic order facts for merge_ordered heap entries -/

theorem entryLe_refl [LinearOrder κ] (a : MOEntry κ α) : entryLe a a := by
  simp [entryLe]

theorem entryLe_of_entryLt [LinearOrder κ] {a b : MOEntry κ α}
    (h : entryLt a b) : entryLe a b := by
  unfold entryLt at h
  unfold entryLe
  rcases h with h | ⟨hk, h⟩
  · exact Or.inl h
  · rcases h with h | ⟨hs, h⟩
    · exact Or.inr ⟨hk, Or.inl h⟩
    · exact Or.inr ⟨hk, Or.inr ⟨hs, Nat.le_of_lt h⟩⟩

theorem entryLe_of_not_entryLt [LinearOrder κ] {a b : MOEntry κ α}
    (h : ¬ entryLt a b) : entryLe b a := by
  unfold entryLt at h
  unfold entryLe
  rcases lt_trichotomy b.key a.key with hk | hk | hk
  · exact Or.inl hk
  · right
    refine ⟨hk, ?_⟩
    rcases Nat.lt_trichotomy b.src a.src with hs | hs | hs
    · exact Or.inl hs
    · right
      refine ⟨hs, ?_⟩
      by_contra hseq
      push_neg at hseq
      exact h (Or.inr ⟨hk.symm, Or.inr ⟨hs.symm, hseq⟩⟩)
    · exact absurd (Or.inr ⟨hk.symm, Or.inl hs⟩) h
  · exact absurd (Or.inl hk) h

theorem entryLe_trans [LinearOrder κ] {a b c : MOEntry κ α}
    (h1 : entryLe a b) (h2 : entryLe b c) : entryLe a c := by
  unfold entryLe at h1 h2 ⊢
  rcases h1 with h1 | ⟨e1, h1⟩
  · rcases h2 with h2 | ⟨e2, h2⟩
    · exact Or.inl (lt_trans h1 h2)
    · exact Or.inl (lt_of_lt_of_le h1 (le_of_eq e2))
  · rcases h2 with h2 | ⟨e2, h2⟩
    · exact Or.inl (lt_of_le_of_lt (le_of_eq e1) h2)
    · right
      refine ⟨e1.trans e2, ?_⟩
      rcases h1 with h1 | ⟨s1, h1⟩
      · rcases h2 with h2 | ⟨s2, h2⟩
        · exact Or.inl (Nat.lt_trans h1 h2)
        · exact Or.inl (s2 ▸ h1)
      · rcases h2 with h2 | ⟨s2, h2⟩
        · exact Or.inl (s1 ▸ h2)
        · exact Or.inr ⟨s1.trans s2, Nat.le_trans h1 h2⟩

theorem key_le_of_entryLe [LinearOrder κ] {a b : MOEntry κ α}
    (h : entryLe a b) : a.key ≤ b.key := by
  unfold entryLe at h
  rcases h with h | ⟨hk, _⟩
  · exact le_of_lt h
  · exact le_of_eq hk

/-! ### popMin facts -/

theorem popMin_eq_none_iff [LinearOrder κ] (l : List (MOEntry κ α)) :
    popMin l = none ↔ l = [] := by
  cases l with
  | nil => simp [popMin]
  | cons e es =>
    rw [popMin]
    cases h : popMin es with
    | none => simp
    | some p =>
      obtain ⟨m, rest⟩ := p
      by_cases hlt : entryLt m e <;> simp [hlt]

theorem popMin_perm [LinearOrder κ] :
    ∀ (l : List (MOEntry κ α)) (m : MOEntry κ α) (rest : List (MOEntry κ α)),
      popMin l = some (m, rest) → (m :: rest).Perm l := by
  intro l
  induction l with
  | nil => intro m rest h; simp [popMin] at h
  | cons e es ih =>
    intro m rest h
    rw [popMin] at h
    cases hp : popMin es with
    | none =>
      simp only [hp] at h
      simp only [Option.some.injEq, Prod.mk.injEq] at h
      obtain ⟨rfl, rfl⟩ := h
      have hnil : es = [] := (popMin_eq_none_iff es).mp hp
      subst hnil
      exact List.Perm.refl _
    | some p =>
      obtain ⟨m2, rest2⟩ := p
      simp only [hp] at h
      by_cases hlt : entryLt m2 e
      · rw [if_pos hlt] at h
        simp only [Option.some.injEq, Prod.mk.injEq] at h
        obtain ⟨rfl, rfl⟩ := h
        exact (List.Perm.swap e m2 rest2).trans ((ih m2 rest2 hp).cons e)
      · rw [if_neg hlt] at h
        simp only [Option.some.injEq, Prod.mk.injEq] at h
        obtain ⟨rfl, rfl⟩ := h
        exact List.Perm.refl _

theorem popMin_le [LinearOrder κ] :
    ∀ (l : List (MOEntry κ α)) (m : MOEntry κ α) (rest : List (MOEntry κ α)),
      popMin l = some (m, rest) → ∀ e ∈ l, entryLe m e := by
  intro l
  induction l with
  | nil => intro m rest h; simp [popMin] at h
  | cons e es ih =>
    intro m rest h
    rw [popMin] at h
    cases hp : popMin es with
    | none =>
      simp only [hp] at h
      have hm : e = m := congrArg Prod.fst (Option.some.inj h)
      subst hm
      have : es = [] := (popMin_eq_none_iff es).mp hp
      subst this
      intro f hf
      rcases List.mem_singleton.mp hf with rfl
      exact entryLe_refl _
    | some p =>
      obtain ⟨m2, rest2⟩ := p
      simp only [hp] at h
      by_cases hlt : entryLt m2 e
      · rw [if_pos hlt] at h
        have hm : m2 = m := congrArg Prod.fst (Option.some.inj h)
        subst hm
        intro f hf
        rcases List.mem_cons.mp hf with rfl | hf
        · exact entryLe_of_entryLt hlt
        · exact ih m2 rest2 hp f hf
      · rw [if_neg hlt] at h
        have hm : e = m := congrArg Prod.fst (Option.some.inj h)
        subst hm
        intro f hf
        rcases List.mem_cons.mp hf with rfl | hf
        · exact entryLe_refl f
        · exact entryLe_trans (entryLe_of_not_entryLt hlt) (ih m2 rest2 hp f hf)

/-! ### List bookkeeping facts for the merge_ordered loop measure -/

theorem getD_nil_elim {l : List (List β)} {i : Nat} {x : β} {xs : List β}
    (hl : l = []) (h : l.getD i [] = x :: xs) : False := by
  subst hl
  cases i <;> simp at h

theorem sum_map_length_set (x : β) (xs : List β) :
    ∀ (l : List (List β)) (i : Nat), l.getD i [] = x :: xs →
      ((l.set i xs).map List.length).sum + 1 = (l.map List.length).sum := by
  intro l
  induction l with
  | nil => intro i h; exact absurd (getD_nil_elim rfl h) not_false
  | cons a t ih =>
    intro i h
    cases i with
    | zero =>
      have ha : a = x :: xs := by simpa using h
      subst ha
      simp
      omega
    | succ j =>
      have := ih j (by simpa using h)
      simp only [List.set_cons_succ, List.map_cons, List.sum_cons]
      omega

theorem flatten_set_perm (x : β) (xs : List β) :
    ∀ (l : List (List β)) (i : Nat), l.getD i [] = x :: xs →
      l.flatten.Perm (x :: (l.set i xs).flatten) := by
  intro l
  induction l with
  | nil => intro i h; exact absurd (getD_nil_elim rfl h) not_false
  | cons a t ih =>
    intro i h
    cases i with
    | zero =>
      have ha : a = x :: xs := by simpa using h
      subst ha
      simp
    | succ j =>
      have hrec := ih j (by simpa using h)
      have h1 : (a ++ t.flatten).Perm (a ++ (x :: (t.set j xs).flatten)) :=
        List.Perm.append_left a hrec
      have h2 : (a ++ (x :: (t.set j xs).flatten)).Perm (x :: (a ++ (t.set j xs).flatten)) :=
        List.perm_middle
      simpa using h1.trans h2

theorem getD_mem_of_lt (l : List β) (d : β) :
    ∀ j, j < l.length → l.getD j d ∈ l := by
  induction l with
  | nil => intro j h; simp at h
  | cons a t ih =>
    intro j h
    cases j with
    | zero => simp
    | succ j2 =>
      simp only [List.getD_cons_succ]
      exact List.mem_cons_of_mem a (ih j2 (by simpa using h))

theorem getD_nil_of_all_nil :
    ∀ (l : List (List β)), (∀ m ∈ l, m = []) → ∀ s, l.getD s [] = [] := by
  intro l
  induction l with
  | nil => intro _ s; cases s <;> rfl
  | cons a t ih =>
    intro h s
    cases s with
    | zero => exact h a (by simp)
    | succ j => simpa using ih (fun m hm => h m (by simp [hm])) j

theorem flatten_eq_nil_of_all_nil (l : List (List β)) (h : ∀ m ∈ l, m = []) :
    l.flatten = [] := by
  induction l with
  | nil => rfl
  | cons a t ih =>
    simp only [List.flatten_cons, h a (by simp), List.nil_append]
    exact ih (fun m hm => h m (by simp [hm]))

theorem all_nil_of_sum_length_zero (l : List (List β))
    (h : (l.map List.length).sum = 0) : ∀ m ∈ l, m = [] := by
  induction l with
  | nil => simp
  | cons a t ih =>
    simp only [List.map_cons, List.sum_cons] at h
    intro m hm
    rcases List.mem_cons.mp hm with rfl | hm
    · exact List.eq_nil_of_length_eq_zero (by omega)
    · exact ih (by omega) m hm

theorem all_nil_of_getD_nil (l : List (List β))
    (h : ∀ s, s < l.length → l.getD s [] = []) : ∀ m ∈ l, m = [] := by
  induction l with
  | nil => simp
  | cons a t ih =>
    intro m hm
    rcases List.mem_cons.mp hm with rfl | hm
    · exact h 0 (by simp)
    · exact ih (fun s hs => by simpa using h (s + 1) (by simpa using hs)) m hm

theorem filter_src_length_le_one :
    ∀ (l : List (MOEntry κ α)), l.Pairwise (fun a b => a.src ≠ b.src) →
      ∀ s, (l.filter (fun e => e.src == s)).length ≤ 1 := by
  intro l
  induction l with
  | nil => intro _ s; simp
  | cons a t ih =>
    intro hl s
    obtain ⟨ha, ht⟩ := List.pairwise_cons.mp hl
    by_cases has : a.src = s
    · have htnil : t.filter (fun e => e.src == s) = [] := by
        rw [List.filter_eq_nil_iff]
        intro e he
        simp only [beq_iff_eq]
        exact fun hc => (ha e he) (has.trans hc.symm)
      simp [List.filter_cons, has, htnil]
    · simpa [List.filter_cons, has] using ih ht s

theorem perm_eq_of_length_le_one {l₁ l₂ : List β}
    (h : l₁.Perm l₂) (hl : l₁.length ≤ 1) : l₁ = l₂ := by
  cases l₁ with
  | nil => exact (h.symm.eq_nil).symm
  | cons a t =>
    cases t with
    | nil => exact (List.perm_singleton.mp h.symm).symm
    | cons b u => simp at hl

/-- Invariant preservation for the merge_ordered main loop. Invariants:
every heap entry's key field is the key of its item; every entry's
source index addresses the remainders; at most one heap entry per
source; each entry followed by its source's remainder is key-sorted; a
source absent from the heap has an empty remainder. Conclusions: the
emitted key sequence is non-decreasing, every emitted key is bounded
below by some heap key, emitted key fields are the keys of the emitted
items, the per-source emitted subsequence is the heap entry of that
source followed by its remainder, and the emitted items are a
permutation of the heap items plus all remainders. -/
theorem moLoop_spec [LinearOrder κ] (key : α → κ) :
    ∀ (fuel : Nat) (heap : List (MOEntry κ α)) (rests : List (List α)) (ctr : Nat),
      heap.length + (rests.map List.length).sum ≤ fuel →
      (∀ e ∈ heap, e.key = key e.item) →
      (∀ e ∈ heap, e.src < rests.length) →
      heap.Pairwise (fun a b => a.src ≠ b.src) →
      (∀ e ∈ heap, List.Chain' (· ≤ ·) ((e.item :: rests.getD e.src []).map key)) →
      (∀ s, s < rests.length → (∀ e ∈ heap, e.src ≠ s) → rests.getD s [] = []) →
      List.Chain' (· ≤ ·) ((moLoop key fuel heap rests ctr).map MOEntry.key) ∧
      (∀ o ∈ moLoop key fuel heap rests ctr, ∃ e ∈ heap, e.key ≤ o.key) ∧
      (∀ o ∈ moLoop key fuel heap rests ctr, o.key = key o.item) ∧
      (∀ s : Nat,
        ((moLoop key fuel heap rests ctr).filter (fun e => e.src == s)).map MOEntry.item =
          ((heap.filter (fun e => e.src == s)).map MOEntry.item) ++ rests.getD s []) ∧
      ((moLoop key fuel heap rests ctr).map MOEntry.item).Perm
        (heap.map MOEntry.item ++ rests.flatten) := by
  intro fuel
  induction fuel with
  | zero =>
    intro heap rests ctr hmeas h1 h2 h3 h4 h5
    have hheap : heap = [] := List.eq_nil_of_length_eq_zero (by omega)
    have hall : ∀ m ∈ rests, m = [] := all_nil_of_sum_length_zero rests (by omega)
    subst hheap
    refine ⟨by simp [moLoop], by simp [moLoop], by simp [moLoop], ?_, ?_⟩
    · intro s
      show List.map MOEntry.item (List.filter (fun e => e.src == s) []) = _
      simp only [List.filter_nil, List.map_nil, List.nil_append]
      exact (getD_nil_of_all_nil rests hall s).symm
    · show (List.map MOEntry.item ([] : List (MOEntry κ α))).Perm _
      simp only [List.map_nil, List.nil_append,
        flatten_eq_nil_of_all_nil rests hall]
      exact List.Perm.refl []
  | succ n ih =>
    intro heap rests ctr hmeas h1 h2 h3 h4 h5
    cases hpop : popMin heap with
    | none =>
      have hheap : heap = [] := (popMin_eq_none_iff heap).mp hpop
      subst hheap
      have hall : ∀ m ∈ rests, m = [] :=
        all_nil_of_getD_nil rests (fun s hs => h5 s hs (by simp))
      have hstep : moLoop key (n + 1) [] rests ctr = [] := rfl
      refine ⟨by simp [hstep], by simp [hstep], by simp [hstep], ?_, ?_⟩
      · intro s
        rw [hstep]
        simp only [List.filter_nil, List.map_nil, List.nil_append]
        exact (getD_nil_of_all_nil rests hall s).symm
      · rw [hstep]
        simp only [List.map_nil, List.nil_append,
          flatten_eq_nil_of_all_nil rests hall]
        exact List.Perm.refl []
    | some q =>
      obtain ⟨m, rest⟩ := q
      have hperm := popMin_perm heap m rest hpop
      have hmem : m ∈ heap := hperm.subset (by simp)
      have hle := popMin_le heap m rest hpop
      have hlen : rest.length + 1 = heap.length := by simpa using hperm.length_eq
      have hsub : ∀ e ∈ rest, e ∈ heap := fun e he => hperm.subset (by simp [he])
      have hpw : (m :: rest).Pairwise (fun a b => a.src ≠ b.src) :=
        (hperm.pairwise_iff (by intro a b hab; exact hab.symm)).mpr h3
      obtain ⟨hmsrc, hrestpw⟩ := List.pairwise_cons.mp hpw
      have hfr : rest.filter (fun e => e.src == m.src) = [] := by
        rw [List.filter_eq_nil_iff]
        intro e he
        simp only [beq_iff_eq]
        exact fun hc => (hmsrc e he) hc.symm
      have hfilm : heap.filter (fun e => e.src == m.src) = [m] := by
        have hpf := hperm.filter (fun e => e.src == m.src)
        rw [List.filter_cons] at hpf
        simp only [beq_self_eq_true, if_true, hfr] at hpf
        exact (perm_eq_of_length_le_one hpf (by simp)).symm
      have hfils : ∀ s, s ≠ m.src →
          heap.filter (fun e => e.src == s) = rest.filter (fun e => e.src == s) := by
        intro s hs
        have hpf := hperm.filter (fun e => e.src == s)
        rw [List.filter_cons] at hpf
        have hms : (m.src == s) = false := by
          simp only [beq_eq_false_iff_ne]
          exact fun hc => hs hc.symm
        rw [hms] at hpf
        simp only [Bool.false_eq_true, if_false] at hpf
        exact (perm_eq_of_length_le_one hpf (filter_src_length_le_one rest hrestpw s)).symm
      cases hres : rests.getD m.src [] with
      | nil =>
        have hstep : moLoop key (n + 1) heap rests ctr =
            m :: moLoop key n rest rests ctr := by
          simp only [moLoop, hpop, hres]
        have hmeas2 : rest.length + (rests.map List.length).sum ≤ n := by omega
        obtain ⟨A, B, E, C, D⟩ := ih rest rests ctr hmeas2
          (fun e he => h1 e (hsub e he)) (fun e he => h2 e (hsub e he)) hrestpw
          (fun e he => h4 e (hsub e he))
          (by
            intro s hs hnone
            by_cases hsm : s = m.src
            · exact hsm ▸ hres
            · refine h5 s hs ?_
              intro e he
              rcases List.mem_cons.mp (hperm.mem_iff.mpr he) with rfl | he2
              · exact fun hc => hsm hc.symm
              · exact hnone e he2)
        have hmk : ∀ o ∈ moLoop key n rest rests ctr, m.key ≤ o.key := by
          intro o ho
          obtain ⟨e, he, hek⟩ := B o ho
          exact le_trans (key_le_of_entryLe (hle e (hsub e he))) hek
        refine ⟨?_, ?_, ?_, ?_, ?_⟩
        · rw [hstep, List.map_cons]
          refine List.chain'_cons'.mpr ⟨?_, A⟩
          intro b hb
          obtain ⟨o, ho, rfl⟩ := List.mem_map.mp (List.mem_of_mem_head? hb)
          exact hmk o ho
        · rw [hstep]
          intro o ho
          rcases List.mem_cons.mp ho with rfl | ho
          · exact ⟨o, hmem, le_rfl⟩
          · exact ⟨m, hmem, hmk o ho⟩
        · rw [hstep]
          intro o ho
          rcases List.mem_cons.mp ho with rfl | ho
          · exact h1 _ hmem
          · exact E o ho
        · intro s
          rw [hstep, List.filter_cons]
          by_cases hsm : m.src = s
          · subst hsm
            simp only [beq_self_eq_true, if_true, List.map_cons, C m.src, hfr, hfilm,
              hres, List.map_nil, List.nil_append, List.append_nil]
          · have hms : (m.src == s) = false := by simpa using hsm
            rw [hms]
            simp only [Bool.false_eq_true, if_false, C s, hfils s (fun hc => hsm hc.symm)]
        · rw [hstep]
          exact (D.cons (MOEntry.item m)).trans
            ((hperm.map MOEntry.item).append_right rests.flatten)
      | cons x xs =>
        have hsrclt : m.src < rests.length := h2 m hmem
        have hstep : moLoop key (n + 1) heap rests ctr =
            m :: moLoop key n (⟨key x, m.src, ctr, x⟩ :: rest)
              (rests.set m.src xs) (ctr + 1) := by
          simp only [moLoop, hpop, hres]
        have hsum := sum_map_length_set x xs rests m.src hres
        have hmeas2 : (⟨key x, m.src, ctr, x⟩ :: rest :
              List (MOEntry κ α)).length +
            ((rests.set m.src xs).map List.length).sum ≤ n := by
          simp only [List.length_cons]
          omega
        have hchm := h4 m hmem
        rw [hres] at hchm
        simp only [List.map_cons] at hchm
        obtain ⟨hmx, hchx⟩ := List.chain'_cons.mp hchm
        obtain ⟨A, B, E, C, D⟩ := ih (⟨key x, m.src, ctr, x⟩ :: rest)
          (rests.set m.src xs) (ctr + 1) hmeas2
          (by
            intro e he
            rcases List.mem_cons.mp he with rfl | he
            · rfl
            · exact h1 e (hsub e he))
          (by
            intro e he
            rw [List.length_set]
            rcases List.mem_cons.mp he with rfl | he
            · exact hsrclt
            · exact h2 e (hsub e he))
          (List.pairwise_cons.mpr ⟨fun e he => hmsrc e he, hrestpw⟩)
          (by
            intro e he
            rcases List.mem_cons.mp he with rfl | he
            · rw [getD_set_eq rests xs [] m.src hsrclt]
              simpa using hchx
            · rw [getD_set_ne rests xs [] m.src e.src (hmsrc e he)]
              exact h4 e (hsub e he))
          (by
            intro s hs hnone
            by_cases hsm : s = m.src
            · exact absurd hsm.symm
                (hnone ⟨key x, m.src, ctr, x⟩ (List.mem_cons_self _ _))
            · rw [getD_set_ne rests xs [] m.src s (fun hc => hsm hc.symm)]
              refine h5 s (by simpa using hs) ?_
              intro e he
              rcases List.mem_cons.mp (hperm.mem_iff.mpr he) with rfl | he2
              · exact fun hc => hsm hc.symm
              · exact hnone e (List.mem_cons_of_mem _ he2))
        have hmk : ∀ o ∈ moLoop key n (⟨key x, m.src, ctr, x⟩ :: rest)
            (rests.set m.src xs) (ctr + 1), m.key ≤ o.key := by
          intro o ho
          obtain ⟨e, he, hek⟩ := B o ho
          rcases List.mem_cons.mp he with rfl | he
          · calc m.key = key m.item := h1 m hmem
              _ ≤ key x := hmx
              _ ≤ o.key := hek
          · exact le_trans (key_le_of_entryLe (hle e (hsub e he))) hek
        refine ⟨?_, ?_, ?_, ?_, ?_⟩
        · rw [hstep, List.map_cons]
          refine List.chain'_cons'.mpr ⟨?_, A⟩
          intro b hb
          obtain ⟨o, ho, rfl⟩ := List.mem_map.mp (List.mem_of_mem_head? hb)
          exact hmk o ho
        · rw [hstep]
          intro o ho
          rcases List.mem_cons.mp ho with rfl | ho
          · exact ⟨o, hmem, le_rfl⟩
          · exact ⟨m, hmem, hmk o ho⟩
        · rw [hstep]
          intro o ho
          rcases List.mem_cons.mp ho with rfl | ho
          · exact h1 _ hmem
          · exact E o ho
        · intro s
          rw [hstep, List.filter_cons]
          by_cases hsm : m.src = s
          · subst hsm
            simp only [beq_self_eq_true, if_true, List.map_cons, C m.src,
              List.filter_cons, hfr, hfilm, getD_set_eq rests xs [] m.src hsrclt,
              hres, List.map_nil, List.nil_append]
            rfl
          · have hms : (m.src == s) = false := by simpa using hsm
            rw [hms]
            simp only [Bool.false_eq_true, if_false, C s, List.filter_cons, hms,
              getD_set_ne rests xs [] m.src s hsm,
              hfils s (fun hc => hsm hc.symm)]
        · rw [hstep]
          have hfl := flatten_set_perm x xs rests m.src hres
          have h7 : (rest.map MOEntry.item ++ rests.flatten).Perm
              (x :: (rest.map MOEntry.item ++ (rests.set m.src xs).flatten)) :=
            (List.Perm.append_left _ hfl).trans List.perm_middle
          exact (D.cons (MOEntry.item m)).trans
            (((((hperm.map MOEntry.item).append_right rests.flatten).symm).trans
              (h7.cons (MOEntry.item m))).symm)

/-- Properties of merge_ordered initialization: pulling one element
from every source (sources indexed from `i`) establishes the loop
invariants — correct key fields, one entry per non-empty source with
in-range indices, sortedness of entry-plus-remainder per source, empty
remainders for sources without entries — and the per-source and global
accounting of heap items plus remainders against the sources. -/
theorem moInitAux_spec [LinearOrder κ] (key : α → κ) :
    ∀ (ss : List (List α)) (i c0 : Nat),
      (moInitAux key ss i c0).2.1.length = ss.length ∧
      (∀ e ∈ (moInitAux key ss i c0).1, e.key = key e.item) ∧
      (∀ e ∈ (moInitAux key ss i c0).1, i ≤ e.src ∧ e.src < i + ss.length) ∧
      (moInitAux key ss i c0).1.Pairwise (fun a b => a.src ≠ b.src) ∧
      (∀ e ∈ (moInitAux key ss i c0).1,
        e.item :: (moInitAux key ss i c0).2.1.getD (e.src - i) [] =
          ss.getD (e.src - i) []) ∧
      (∀ j, j < ss.length → (∀ e ∈ (moInitAux key ss i c0).1, e.src ≠ i + j) →
        (moInitAux key ss i c0).2.1.getD j [] = []) ∧
      (∀ j, ((moInitAux key ss i c0).1.filter (fun e => e.src == i + j)).map
            MOEntry.item ++ (moInitAux key ss i c0).2.1.getD j [] = ss.getD j []) ∧
      ((moInitAux key ss i c0).1.map MOEntry.item ++
        (moInitAux key ss i c0).2.1.flatten).Perm ss.flatten := by
  intro ss
  induction ss with
  | nil =>
    intro i c0
    refine ⟨rfl, by simp [moInitAux], by simp [moInitAux], by simp [moInitAux],
      by simp [moInitAux], by simp, ?_, by simp [moInitAux]⟩
    intro j
    simp only [moInitAux, List.filter_nil, List.map_nil, List.nil_append]
  | cons l ss ihs =>
    intro i c0
    cases l with
    | nil =>
      obtain ⟨ih1, ih2, ih3, ih4, ih5, ih6, ih7, ih8⟩ := ihs (i + 1) c0
      have hred : moInitAux key ([] :: ss) i c0 =
          ((moInitAux key ss (i + 1) c0).1,
            [] :: (moInitAux key ss (i + 1) c0).2.1,
            (moInitAux key ss (i + 1) c0).2.2) := rfl
      rw [hred]
      refine ⟨by simp [ih1], ih2, ?_, ih4, ?_, ?_, ?_, ?_⟩
      · intro e he
        have := ih3 e he
        simp only [List.length_cons]
        omega
      · intro e he
        have hidx : e.src - i = (e.src - (i + 1)) + 1 := by
          have := (ih3 e he).1
          omega
        rw [hidx, List.getD_cons_succ, List.getD_cons_succ]
        exact ih5 e he
      · intro j hj hnone
        cases j with
        | zero => rfl
        | succ j2 =>
          rw [List.getD_cons_succ]
          refine ih6 j2 (by simp only [List.length_cons] at hj ⊢ <;> omega) ?_
          intro e he hc
          exact hnone e he (by omega)
      · intro j
        cases j with
        | zero =>
          have hfil : (moInitAux key ss (i + 1) c0).1.filter
              (fun e => e.src == i) = [] := by
            rw [List.filter_eq_nil_iff]
            intro e he
            simp only [beq_iff_eq]
            have := (ih3 e he).1
            omega
          simp [hfil]
        | succ j2 =>
          have hidx : i + (j2 + 1) = (i + 1) + j2 := by omega
          rw [hidx, List.getD_cons_succ, List.getD_cons_succ]
          exact ih7 j2
      · simpa using ih8
    | cons x xt =>
      obtain ⟨ih1, ih2, ih3, ih4, ih5, ih6, ih7, ih8⟩ := ihs (i + 1) (c0 + 1)
      have hred : moInitAux key ((x :: xt) :: ss) i c0 =
          (⟨key x, i, c0, x⟩ :: (moInitAux key ss (i + 1) (c0 + 1)).1,
            xt :: (moInitAux key ss (i + 1) (c0 + 1)).2.1,
            (moInitAux key ss (i + 1) (c0 + 1)).2.2) := rfl
      rw [hred]
      refine ⟨by simp [ih1], ?_, ?_, ?_, ?_, ?_, ?_, ?_⟩
      · intro e he
        rcases List.mem_cons.mp he with rfl | he
        · rfl
        · exact ih2 e he
      · intro e he
        rcases List.mem_cons.mp he with rfl | he
        · simp only [List.length_cons]
          omega
        · have := ih3 e he
          simp only [List.length_cons]
          omega
      · refine List.pairwise_cons.mpr ⟨?_, ih4⟩
        intro e he
        have := (ih3 e he).1
        show i ≠ e.src
        omega
      · intro e he
        rcases List.mem_cons.mp he with rfl | he
        · simp
        · have hidx : e.src - i = (e.src - (i + 1)) + 1 := by
            have := (ih3 e he).1
            omega
          rw [hidx, List.getD_cons_succ, List.getD_cons_succ]
          exact ih5 e he
      · intro j hj hnone
        cases j with
        | zero =>
          exact absurd rfl (hnone ⟨key x, i, c0, x⟩ (List.mem_cons_self _ _))
        | succ j2 =>
          rw [List.getD_cons_succ]
          refine ih6 j2 (by simp only [List.length_cons] at hj ⊢ <;> omega) ?_
          intro e he hc
          exact hnone e (List.mem_cons_of_mem _ he) (by omega)
      · intro j
        cases j with
        | zero =>
          have hfil : (moInitAux key ss (i + 1) (c0 + 1)).1.filter
              (fun e => e.src == i) = [] := by
            rw [List.filter_eq_nil_iff]
            intro e he
            simp only [beq_iff_eq]
            have := (ih3 e he).1
            omega
          simp [List.filter_cons, hfil]
        | succ j2 =>
          have hq : ((⟨key x, i, c0, x⟩ : MOEntry κ α).src == i + (j2 + 1)) = false := by
            simp
          rw [List.filter_cons, hq]
          simp only [Bool.false_eq_true, if_false]
          have hidx : i + (j2 + 1) = (i + 1) + j2 := by omega
          rw [hidx, List.getD_cons_succ, List.getD_cons_succ]
          exact ih7 j2
      · have e1 : ((⟨key x, i, c0, x⟩ :: (moInitAux key ss (i + 1) (c0 + 1)).1).map
              MOEntry.item ++ (xt :: (moInitAux key ss (i + 1) (c0 + 1)).2.1).flatten) =
            x :: ((moInitAux key ss (i + 1) (c0 + 1)).1.map MOEntry.item ++
              (xt ++ (moInitAux key ss (i + 1) (c0 + 1)).2.1.flatten)) := by
          simp
        have p1 : ((moInitAux key ss (i + 1) (c0 + 1)).1.map MOEntry.item ++
              (xt ++ (moInitAux key ss (i + 1) (c0 + 1)).2.1.flatten)).Perm
            (xt ++ ((moInitAux key ss (i + 1) (c0 + 1)).1.map MOEntry.item ++
              (moInitAux key ss (i + 1) (c0 + 1)).2.1.flatten)) := by
          have h := (@List.perm_append_comm _
            ((moInitAux key ss (i + 1) (c0 + 1)).1.map MOEntry.item)
            xt).append_right
            (moInitAux key ss (i + 1) (c0 + 1)).2.1.flatten
          simpa [List.append_assoc] using h
        have p2 : (xt ++ ((moInitAux key ss (i + 1) (c0 + 1)).1.map MOEntry.item ++
              (moInitAux key ss (i + 1) (c0 + 1)).2.1.flatten)).Perm
            (xt ++ ss.flatten) := List.Perm.append_left xt ih8
        have e2 : ((x :: xt) :: ss).flatten = x :: (xt ++ ss.flatten) := by simp
        rw [e1, e2]
        exact (p1.trans p2).cons x

/-- Claim C1: for sources that are each individually non-decreasing
under the key function, `merge_ordered` emits a key-non-decreasing
sequence that is a permutation of the concatenated inputs; the emitted
subsequence drawn from source `s` (the receiver stream is index 0, the
extra sources follow in argument order) is exactly source `s`, so
intra-source order is preserved; and at every pop the emitted heap
entry is lexicographically minimal among the coexisting heap entries —
smaller key first, then smaller source index, then earlier insertion
sequence (`entryLe`). -/
theorem merge_ordered_spec [LinearOrder κ] (key : α → κ) (sources : List (List α))
    (hs : ∀ l ∈ sources, List.Chain' (· ≤ ·) (l.map key)) :
    List.Chain' (· ≤ ·) ((mergeOrdered key sources).map key) ∧
    (mergeOrdered key sources).Perm sources.flatten ∧
    (∀ s : Nat, ((mergeOrderedAux key sources).filter (fun e => e.src == s)).map
        MOEntry.item = sources.getD s []) ∧
    (∀ (heap : List (MOEntry κ α)) (m : MOEntry κ α) (rest : List (MOEntry κ α)),
      popMin heap = some (m, rest) → ∀ e ∈ heap, entryLe m e) := by
  obtain ⟨ih1, ih2, ih3, ih4, ih5, ih6, ih7, ih8⟩ := moInitAux_spec key sources 0 0
  simp only [Nat.zero_add, Nat.sub_zero] at ih3 ih5 ih6 ih7
  have haux : mergeOrderedAux key sources =
      moLoop key ((moInitAux key sources 0 0).1.length +
          (((moInitAux key sources 0 0).2.1).map List.length).sum)
        (moInitAux key sources 0 0).1 (moInitAux key sources 0 0).2.1
        (moInitAux key sources 0 0).2.2 := rfl
  obtain ⟨A, B, E, C, D⟩ := moLoop_spec key
    ((moInitAux key sources 0 0).1.length +
      (((moInitAux key sources 0 0).2.1).map List.length).sum)
    (moInitAux key sources 0 0).1 (moInitAux key sources 0 0).2.1
    (moInitAux key sources 0 0).2.2 le_rfl ih2
    (fun e he => by rw [ih1]; exact (ih3 e he).2) ih4
    (fun e he => by
      rw [ih5 e he]
      exact hs _ (getD_mem_of_lt sources [] e.src (ih3 e he).2))
    (fun s hslt hnone => ih6 s (by rw [← ih1]; exact hslt) hnone)
  rw [← haux] at A B E C D
  refine ⟨?_, ?_, ?_, popMin_le⟩
  · have hmaps : (mergeOrdered key sources).map key =
        (mergeOrderedAux key sources).map MOEntry.key := by
      rw [mergeOrdered, List.map_map]
      exact List.map_congr_left (fun o ho => (E o ho).symm)
    rw [hmaps]
    exact A
  · rw [mergeOrdered]
    exact D.trans ih8
  · intro s
    exact (C s).trans (ih7 s)

/-- Witness for C1 at the spec's concrete scenario: three ordered
sources `[1, 4, 7]`, `[2, 3, 6]`, `[5, 8]` with the identity key. -/
theorem merge_ordered_spec_witness :
    (∀ l ∈ ([[1, 4, 7], [2, 3, 6], [5, 8]] : List (List Int)),
      List.Chain' (· ≤ ·) (l.map (fun x : Int => x))) ∧
    List.Chain' (· ≤ ·)
      ((mergeOrdered (fun x : Int => x) [[1, 4, 7], [2, 3, 6], [5, 8]]).map
        (fun x : Int => x)) ∧
    (mergeOrdered (fun x : Int => x) [[1, 4, 7], [2, 3, 6], [5, 8]]).Perm
      ([[1, 4, 7], [2, 3, 6], [5, 8]] : List (List Int)).flatten ∧
    ((mergeOrderedAux (fun x : Int => x) [[1, 4, 7], [2, 3, 6], [5, 8]]).filter
        (fun e => e.src == 0)).map MOEntry.item = [1, 4, 7] := by
  have hhyp : ∀ l ∈ ([[1, 4, 7], [2, 3, 6], [5, 8]] : List (List Int)),
      List.Chain' (· ≤ ·) (l.map (fun x : Int => x)) := by
    intro l hl
    simp only [List.mem_cons, List.not_mem_nil, or_false] at hl
    rcases hl with rfl | rfl | rfl <;> simp [List.chain'_cons]
  have h := merge_ordered_spec (fun x : Int => x) [[1, 4, 7], [2, 3, 6], [5, 8]] hhyp
  exact ⟨hhyp, h.1, h.2.1, by simpa using h.2.2.1 0⟩

/-- Concrete evaluation of merge_ordered at the spec's scenario: the
three ordered sources fuse into the fully sorted sequence. -/
theorem merge_ordered_concrete :
    mergeOrdered (fun x : Int => x) [[1, 4, 7], [2, 3, 6], [5, 8]] =
      [1, 2, 3, 4, 5, 6, 7, 8] := by decide

/-- Witness for C2: two branches over `[1, 2, 3]`; branch 0 drains the
upstream first, then branch 1 is drained from its buffer; branch 1 has
collected the full source. -/
theorem split_branches_full_sequence_witness :
    2 ≤ 2 ∧ 1 < 2 ∧
    (runSplit [0, 0, 0, 0, 1, 1, 1, 1] (splitInit 2 [1, 2, 3])
        (List.replicate 2 [])).1.buffers.getD 1 [] = [] ∧
    (runSplit [0, 0, 0, 0, 1, 1, 1, 1] (splitInit 2 [1, 2, 3])
        (List.replicate 2 [])).1.remaining = [] ∧
    ((runSplit [0, 0, 0, 0, 1, 1, 1, 1] (splitInit 2 [1, 2, 3])
        (List.replicate 2 [])).2.getD 1 [] = [1, 2, 3] ∧
      (nextFor (runSplit [0, 0, 0, 0, 1, 1, 1, 1] (splitInit 2 [1, 2, 3])
        (List.replicate 2 [])).1 1).1 = none) :=
  ⟨by decide, by decide, by decide, by decide,
    split_branches_full_sequence [1, 2, 3] 2 (by decide) [0, 0, 0, 0, 1, 1, 1, 1] 1
      (by decide) (by decide) (by decide)⟩

end SkryStream
